import Mathlib

/-!
Verification development for the nexora HTTP router's dispatch core:
the per-method radix tree (insert, lookup, trailing-slash markers,
case-insensitive recovery) and the surrounding dispatcher logic
(redirects, Allow computation, method fallback).

Paths and fragments are modelled as `List Char` (`Str`); Go `nil` slices
and maps are modelled with `Option`; Go panics are modelled as explicit
error values.  Handler values are opaque and modelled as `Nat` identifiers.
-/

namespace NexoraModel

abbrev Str := List Char

/-- Length of the longest common prefix of two strings
(Go helper `longestCommonPrefix`, not included under `src/`;
its behaviour is fixed by its use in `tree.Add` and `node.add`). -/
def longestCommonPrefixLen : Str → Str → Nat
  | a :: as, b :: bs => if a = b then longestCommonPrefixLen as bs + 1 else 0
  | _, _ => 0

/-- ASCII lower-casing of one character, for `strings.EqualFold` on ASCII paths. -/
def toLowerChar (c : Char) : Char :=
  if 'A' ≤ c ∧ c ≤ 'Z' then Char.ofNat (c.toNat + 32) else c

/-- Modelled from the spec: case-insensitive recovery "compares fragments under
ASCII case-fold" (§4.E); models Go `strings.EqualFold` on ASCII strings. -/
def equalFold (a b : Str) : Bool :=
  a.map toLowerChar == b.map toLowerChar

/-- Modelled from the spec: the index just past the current path segment
("take the segment up to the next `/`", §4.D); the Go helper
`segmentEndIndex(path, includeTSR)` is not under `src/`.  With
`includeTSR` a remainder that is exactly `"/"` is folded into the segment,
matching the trailing-slash peeling described in §4.C step 5. -/
def segmentEndIndex (path : Str) (includeTSR : Bool) : Nat :=
  let e := (path.takeWhile (fun c => c ≠ '/')).length
  if includeTSR ∧ path.drop e = ['/'] then e + 1 else e

/-- Substring `s[a:b]` of a `Str`. -/
def substr (s : Str) (a b : Nat) : Str := (s.take b).drop a

/-!  A small regular-expression evaluator.

The source delegates segment-constraint matching to Go's `regexp` package
(`regexp.MustCompile`, `FindStringSubmatchIndex`).  We model a compiled
regular expression semantically as the function the tree lookup consumes:
`Regexp` maps a string to the Go-style submatch index list
`[s0, e0, s1, e1, ...]` (empty list = no match), using leftmost, greedy
(preference-ordered) matching as Go's engine does for the patterns the
router compiles. -/

abbrev Regexp := Str → List Nat

/-- Character-class item: an inclusive character range (single characters
are collapsed ranges). -/
abbrev CRange := Char × Char

/-- Captureless regular-expression syntax for constraint bodies. -/
inductive RE where
  | eps : RE
  | lit : Char → RE
  | cls : Bool → List CRange → RE
  | anyc : RE
  | seqr : RE → RE → RE
  | alt : RE → RE → RE
  | star : RE → RE
  | plus : RE → RE
deriving Repr

def inRanges (rs : List CRange) (c : Char) : Bool :=
  rs.any (fun r => r.1 ≤ c ∧ c ≤ r.2)

def inClass (neg : Bool) (rs : List CRange) (c : Char) : Bool :=
  if neg then !(inRanges rs c) else inRanges rs c

/-- All prefix-match lengths of `re` against `s`, most-preferred first
(greedy quantifiers, left-biased alternation), with `fuel` bounding
unfolding of starred subexpressions. -/
def REm : Nat → RE → Str → List Nat
  | 0, _, _ => []
  | _ + 1, .eps, _ => [0]
  | _ + 1, .lit c, s =>
    match s with
    | x :: _ => if x = c then [1] else []
    | [] => []
  | _ + 1, .cls neg rs, s =>
    match s with
    | x :: _ => if inClass neg rs x then [1] else []
    | [] => []
  | _ + 1, .anyc, s =>
    match s with
    | _ :: _ => [1]
    | [] => []
  | fuel + 1, .seqr a b, s =>
    (REm fuel a s).flatMap (fun n => (REm fuel b (s.drop n)).map (n + ·))
  | fuel + 1, .alt a b, s => REm fuel a s ++ REm fuel b s
  | fuel + 1, .star a, s =>
    (((REm fuel a s).filter (fun n => n ≠ 0)).flatMap
      (fun n => (REm fuel (.star a) (s.drop n)).map (n + ·))) ++ [0]
  | fuel + 1, .plus a, s =>
    (REm fuel a s).flatMap (fun n =>
      ((REm fuel (.star a) (s.drop n)).map (n + ·)))

/-- Structural size of a regular expression. -/
def reSize : RE → Nat
  | .eps => 1
  | .lit _ => 1
  | .cls _ _ => 1
  | .anyc => 1
  | .seqr a b => reSize a + reSize b + 1
  | .alt a b => reSize a + reSize b + 1
  | .star a => reSize a + 1
  | .plus a => reSize a + 1

/-- Fuel that is always sufficient for `REm` on `s`. -/
def reFuel (re : RE) (s : Str) : Nat := (reSize re + 1) * (s.length + 2)

/-- One piece of a compiled segment pattern: a literal byte or a capturing
group (the router wraps every constraint body in parentheses, so groups
never nest). -/
inductive SegPiece where
  | lit : Char → SegPiece
  | cap : RE → SegPiece
deriving Repr

/-- First `some` produced by `f` over the list, in order. -/
def firstSome {α β : Type} (l : List α) (f : α → Option β) : Option β :=
  match l with
  | [] => none
  | x :: xs =>
    match f x with
    | some b => some b
    | none => firstSome xs f

/-- Backtracking match of the pieces against `s` starting at `pos`;
returns the end position and the capture spans. -/
def matchPieces : List SegPiece → Str → Nat → Option (Nat × List (Nat × Nat))
  | [], _, pos => some (pos, [])
  | .lit c :: rest, s, pos =>
    match s.drop pos with
    | x :: _ =>
      if x = c then matchPieces rest s (pos + 1) else none
    | [] => none
  | .cap re :: rest, s, pos =>
    let tail := s.drop pos
    firstSome (REm (reFuel re tail) re tail) (fun n =>
      match matchPieces rest s (pos + n) with
      | some (e, gs) => some (e, (pos, pos + n) :: gs)
      | none => none)

/-- The `FindStringSubmatchIndex` function of a compiled segment pattern:
leftmost match, Go-style index list. -/
def mkRegexp (ps : List SegPiece) : Regexp := fun s =>
  match firstSome (List.range (s.length + 1)) (fun i =>
    match matchPieces ps s i with
    | some (e, gs) => some (i, e, gs)
    | none => none) with
  | some (i, e, gs) => i :: e :: gs.flatMap (fun g => [g.1, g.2])
  | none => []

/-- Parse the items of a bracket character class, up to the closing `]`;
returns the ranges and the remaining input. -/
def parseClassItems : Str → List CRange → Option (List CRange × Str)
  | ']' :: rest, acc => some (acc.reverse, rest)
  | a :: '-' :: ']' :: rest, acc =>
    some ((('-', '-') :: (a, a) :: acc).reverse, rest)
  | a :: '-' :: b :: rest, acc => parseClassItems rest ((a, b) :: acc)
  | c :: rest, acc => parseClassItems rest ((c, c) :: acc)
  | [], _ => none

/-- Parse one atom (class, dot, escape or literal) of a constraint body. -/
def parseAtom : Str → Option (RE × Str)
  | '[' :: '^' :: rest =>
    match parseClassItems rest [] with
    | some (rs, rest') => some (.cls true rs, rest')
    | none => none
  | '[' :: rest =>
    match parseClassItems rest [] with
    | some (rs, rest') => some (.cls false rs, rest')
    | none => none
  | '.' :: rest => some (.anyc, rest)
  | '\\' :: 'd' :: rest => some (.cls false [('0', '9')], rest)
  | '\\' :: 'w' :: rest =>
    some (.cls false [('a', 'z'), ('A', 'Z'), ('0', '9'), ('_', '_')], rest)
  | '\\' :: c :: rest => some (.lit c, rest)
  | c :: rest =>
    if c = '(' ∨ c = ')' ∨ c = '|' ∨ c = '+' ∨ c = '*' ∨ c = '?' ∨ c = '{' ∨ c = '}'
    then none else some (.lit c, rest)
  | [] => none

/-- Parse a sequence of atoms with postfix `+`/`*`, stopping at `)`, `|` or
the end of input. -/
def parseSeqRE : Nat → Str → RE → Option (RE × Str)
  | 0, _, _ => none
  | _ + 1, [], acc => some (acc, [])
  | _ + 1, ')' :: rest, acc => some (acc, ')' :: rest)
  | _ + 1, '|' :: rest, acc => some (acc, '|' :: rest)
  | fuel + 1, s, acc =>
    match parseAtom s with
    | none => none
    | some (a, rest) =>
      match rest with
      | '+' :: rest' => parseSeqRE fuel rest' (.seqr acc (.plus a))
      | '*' :: rest' => parseSeqRE fuel rest' (.seqr acc (.star a))
      | _ => parseSeqRE fuel rest (.seqr acc a)

/-- Parse alternations of sequences. -/
def parseAltRE : Nat → Str → Option (RE × Str)
  | 0, _ => none
  | fuel + 1, s =>
    match parseSeqRE (s.length + 1) s .eps with
    | none => none
    | some (a, rest) =>
      match rest with
      | '|' :: rest' =>
        match parseAltRE fuel rest' with
        | some (b, rest'') => some (.alt a b, rest'')
        | none => none
      | _ => some (a, rest)

/-- Modelled from the spec: compile a constraint body (the text after `:` in a
`{name:REGEX}` token, §6) into a matcher.  The source hands the body to Go's
`regexp.MustCompile`; this model parses the class/literal/quantifier/
alternation subset the router's built-in constraint table and the test suite
use, and falls back to a never-matching expression outside that subset. -/
def compileConstraint (body : Str) : RE :=
  match parseAltRE (body.length + 1) body with
  | some (re, []) => re
  | _ => .cls false []

/-- Node kinds, with the Go enumeration order (`root`, `static`, `wildcard`,
`param`) that drives child-sort priority. -/
inductive NodeType where
  | root | static | wildcard | param
deriving DecidableEq, Repr

/-- Numeric value of a `nodeType` in the Go enumeration. -/
def NodeType.idx : NodeType → Nat
  | .root => 0
  | .static => 1
  | .wildcard => 2
  | .param => 3

/-- The catch-all slot of a node (`nodeWildcard`). -/
structure NodeWildcard where
  wpath : Str
  paramKey : Str
  whandlers : List Nat

/-- A radix-tree node (`node`).  Handler chains are opaque `Nat` lists;
`none` models a Go `nil` slice. -/
inductive Node where
  | mk (nType : NodeType) (path : Str) (tsr : Bool) (handlers : Option (List Nat))
      (hasWildChild : Bool) (children : List Node) (wildcard : Option NodeWildcard)
      (paramKeys : List Str) (paramRegex : Option Regexp) : Node

def Node.nType : Node → NodeType
  | .mk t _ _ _ _ _ _ _ _ => t

def Node.path : Node → Str
  | .mk _ p _ _ _ _ _ _ _ => p

def Node.tsr : Node → Bool
  | .mk _ _ b _ _ _ _ _ _ => b

def Node.handlers : Node → Option (List Nat)
  | .mk _ _ _ h _ _ _ _ _ => h

def Node.hasWildChild : Node → Bool
  | .mk _ _ _ _ hw _ _ _ _ => hw

def Node.children : Node → List Node
  | .mk _ _ _ _ _ cs _ _ _ => cs

def Node.wildcard : Node → Option NodeWildcard
  | .mk _ _ _ _ _ _ w _ _ => w

def Node.paramKeys : Node → List Str
  | .mk _ _ _ _ _ _ _ pk _ => pk

def Node.paramRegex : Node → Option Regexp
  | .mk _ _ _ _ _ _ _ _ pr => pr

/-- `newNode`: a fresh static node for the given fragment. -/
def newNode (path : Str) : Node :=
  .mk .static path false none false [] none [] none

/-- `node.split(i)`: the node keeps `fragment[:i]`; a static clone holding
the tail (and the original children, wildcard, handlers and `tsr` flag)
becomes its only child.  The Go original mutates in place via `clone`;
this is the same transformation functionally. -/
def Node.split : Node → Nat → Node
  | .mk t p tsr h hw cs w pk pr, i =>
    .mk t (p.take i) false none hw
      [.mk .static (p.drop i) tsr h hw cs w [] none] none pk pr

/-- A parsed wildcard/param token (`wildPath`).  `wend` is Go's `end`. -/
structure WildPath where
  wpath : Str
  keys : List Str
  start : Nat
  wend : Nat
  pType : NodeType
  regex : Option Regexp

/-- Index of the matching `}` (depth-aware), relative to the given list. -/
def matchBraceIdx : Str → Nat → Nat → Option Nat
  | [], _, _ => none
  | '{' :: rest, depth, i => matchBraceIdx rest (depth + 1) (i + 1)
  | '}' :: rest, depth, i =>
    if depth = 0 then some i else matchBraceIdx rest (depth - 1) (i + 1)
  | _ :: rest, depth, i => matchBraceIdx rest depth (i + 1)

/-- Compile a whole segment with embedded tokens into capture keys and
pieces (`{name}` → default class `[^/]+`, `{name:body}` → compiled body,
other bytes → literals). -/
def segPieces : Nat → Str → Option (List Str × List SegPiece)
  | 0, _ => none
  | _ + 1, [] => some ([], [])
  | fuel + 1, '{' :: rest =>
    match matchBraceIdx rest 0 0 with
    | none => none
    | some j =>
      let body := rest.take j
      let after := rest.drop (j + 1)
      let name := body.takeWhile (fun c => c ≠ ':')
      let re :=
        if name.length < body.length then compileConstraint (body.drop (name.length + 1))
        else RE.plus (RE.cls true [('/', '/')])
      match segPieces fuel after with
      | some (keys, ps) => some (name :: keys, .cap re :: ps)
      | none => none
  | fuel + 1, c :: rest =>
    match segPieces fuel rest with
    | some (keys, ps) => some (keys, .lit c :: ps)
    | none => none

/-- Modelled from the spec: scan for the first wildcard-or-param token of a
pattern (§4.C step 3, §6).  The Go helper `findWildPath` is not under
`src/`; per the data model (§3) a param node carries "one or more named
capture keys for segments with embedded params and an optional compiled
`segment_regex` spanning a whole segment", so a token followed by further
bytes in its segment compiles to a whole-segment regex (inline suffixes),
a lone `{name}` stays regex-free, `{name:body}` compiles its body wrapped
in one capture group, and `{name:*}` is the catch-all. -/
def findWildPath (path : Str) : Option WildPath :=
  let s := (path.takeWhile (fun c => c ≠ '{')).length
  if s = path.length then none
  else
    let rest := path.drop s
    let rest1 := rest.drop 1
    match matchBraceIdx rest1 0 0 with
    | none => none
    | some j =>
      let body := rest1.take j
      let tokLen := j + 2
      let name := body.takeWhile (fun c => c ≠ ':')
      let typ? :=
        if name.length < body.length then some (body.drop (name.length + 1)) else none
      if typ? = some ['*'] then
        some { wpath := rest.take tokLen, keys := [name], start := s, wend := s + tokLen,
               pType := .wildcard, regex := none }
      else
        let segLen := segmentEndIndex rest false
        if tokLen = segLen then
          match typ? with
          | none =>
            some { wpath := rest.take tokLen, keys := [name], start := s,
                   wend := s + tokLen, pType := .param, regex := none }
          | some t =>
            some { wpath := rest.take tokLen, keys := [name], start := s,
                   wend := s + tokLen, pType := .param,
                   regex := some (mkRegexp [.cap (compileConstraint t)]) }
        else
          match segPieces (segLen + 1) (rest.take segLen) with
          | none => none
          | some (keys, ps) =>
            some { wpath := rest.take segLen, keys := keys, start := s,
                   wend := s + segLen, pType := .param,
                   regex := some (mkRegexp ps) }

/-- Result of a lookup.  `invalid` models the Go panics reachable from
`getFromChild`: the `"invalid node type"` branch and out-of-bounds string
or slice indexing.  Params model Go's `map[string]string` (a `nil` map and
an empty map are observationally equal for reads, both are `[]`). -/
inductive GetRes where
  | ok (handlers : Option (List Nat)) (params : List (Str × Str)) (tsr : Bool)
  | invalid
deriving DecidableEq, Repr

/-- Go map assignment `m[k] = v`. -/
def mapSet (m : List (Str × Str)) (k v : Str) : List (Str × Str) :=
  match m with
  | [] => [(k, v)]
  | (k', v') :: rest => if k' = k then (k, v) :: rest else (k', v') :: mapSet rest k v

/-- `for i, key := range keys { params[key] = values[i] }`; `none` models the
index panic when `values` is shorter than `keys`. -/
def setParams (m : List (Str × Str)) : List Str → List Str → Option (List (Str × Str))
  | [], _ => some m
  | k :: ks, v :: vs => setParams (mapSet m k v) ks vs
  | _ :: _, [] => none

/-- Capture substrings from Go-style index pairs. -/
def groupVals (s : Str) : List Nat → List Str
  | a :: b :: rest => substr s a b :: groupVals s rest
  | _ => []

/-- `node.findEndIndexAndValues`: run the segment regex, require the match
to start at index 0, return the match end and the capture values. -/
def Node.findEndIndexAndValues (n : Node) (path : Str) : Option (Nat × List Str) :=
  match n.paramRegex with
  | none => none
  | some rx =>
    match rx path with
    | i0 :: i1 :: rest =>
      if i0 ≠ 0 then none
      else some (i1, groupVals path rest)
    | _ => none

/-- The wildcard fallback at the end of `getFromChild`: bind the whole
remaining path to the catch-all's key. -/
def wildFallback (w : Option NodeWildcard) (path : Str) : GetRes :=
  match w with
  | some wc => .ok (some wc.whandlers) [(wc.paramKey, path)] false
  | none => .ok none [] false

mutual

/-- The child loop of `node.getFromChild`: try each child in order;
`tryChild` answering `none` is the loop's `continue`. -/
def goChildren : List Node → Str → Option GetRes
  | [], _ => none
  | child :: rest, path =>
    match tryChild child path with
    | some r => some r
    | none => goChildren rest path

/-- One iteration of the child loop of `node.getFromChild`.  A recursive
call `child.getFromChild(p)` from the source is written here as
`goChildren child.children p` followed by `wildFallback` on the child's
wildcard slot — the inlined body of `getFromChild` — so that the recursion
is structural on the tree. -/
def tryChild : Node → Str → Option GetRes
  | .mk t cpath ctsr ch _ ccs cw cpk cpr, path =>
    match t with
    | .static =>
      match path, cpath with
      | [], _ => some .invalid
      | _, [] => some .invalid
      | p0 :: _, c0 :: _ =>
        if p0 ≠ c0 then none
        else if path.length > cpath.length then
          if path.take cpath.length ≠ cpath then none
          else
            match (match goChildren ccs (path.drop cpath.length) with
                   | some r => r
                   | none => wildFallback cw (path.drop cpath.length)) with
            | .invalid => some .invalid
            | .ok h params tsr =>
              if h ≠ none ∨ tsr then some (.ok h params tsr) else none
        else if path = cpath then
          if ctsr then some (.ok none [] true)
          else if ch ≠ none then some (.ok ch [] false)
          else
            match cw with
            | some wc => some (.ok (some wc.whandlers) [(wc.paramKey, [])] false)
            | none => some (.ok none [] false)
        else none
    | .param =>
      let e0 := segmentEndIndex path false
      let paramVal := path.take e0
      match (match cpr with
             | none => some (e0, [paramVal])
             | some rx =>
               match rx paramVal with
               | i0 :: i1 :: grs =>
                 if i0 ≠ 0 then none else some (i1, groupVals paramVal grs)
               | _ => none) with
      | none => none
      | some (e, values) =>
        if path.length > e then
          match (match goChildren ccs (path.drop e) with
                 | some r => r
                 | none => wildFallback cw (path.drop e)) with
          | .invalid => some .invalid
          | .ok h params tsr =>
            if h ≠ none then
              match setParams params cpk values with
              | some params' => some (.ok h params' false)
              | none => some .invalid
            else if tsr then some (.ok none [] true)
            else none
        else if path.length = e then
          if ch ≠ none then
            match setParams [] cpk values with
            | some params' => some (.ok ch params' false)
            | none => some .invalid
          else if ctsr then some (.ok none [] true)
          else none
        else none
    | _ => some .invalid

end

/-- `node.getFromChild`: try the children in order, then the wildcard slot. -/
def Node.getFromChild (n : Node) (path : Str) : GetRes :=
  match goChildren n.children path with
  | some r => r
  | none => wildFallback n.wildcard path

/-- A routes storage (`tree`). -/
structure Tree where
  root : Node
  Mutable : Bool

/-- `newTree`: an empty storage whose root has kind `root` and empty fragment. -/
def newTree : Tree :=
  { root := .mk .root [] false none false [] none [] none, Mutable := false }

/-- `tree.Get`: strip the root fragment and search, or answer at the root. -/
def Tree.Get (t : Tree) (path : Str) : GetRes :=
  if path.length > t.root.path.length then
    if path.take t.root.path.length ≠ t.root.path then .ok none [] false
    else t.root.getFromChild (path.drop t.root.path.length)
  else if path = t.root.path then
    if t.root.tsr then .ok none [] true
    else if t.root.handlers ≠ none then .ok t.root.handlers [] false
    else
      match t.root.wildcard with
      | some wc => .ok (some wc.whandlers) [(wc.paramKey, [])] false
      | none => .ok none [] false
  else .ok none [] false

/-- Registration-time failure kinds, one per `radixError` message of the
source (`errSetHandler`, `errSetWildcardHandler`, `errWildPathConflict`,
`errWildcardConflict`, `errWildcardSlash`, `errWildcardNotAtEnd`).
`invalidE` models other Go panics (nil dereference / bounds); `fuelE` is a
termination artifact of the embedding and is never produced when the fuel
passed by `Tree.Add` is used. -/
inductive ErrKind where
  | setHandlerE | setWildcardHandlerE | wildPathConflictE | wildcardConflictE
  | wildcardSlashE | wildcardNotAtEndE | invalidE | fuelE
deriving DecidableEq, Repr

/-- Result of the insertion functions.  The Go originals mutate the tree in
place and return a node pointer together with an error; `tree` is the
rebuilt subtree after those mutations, `nTsr` is the `tsr` flag of the
returned node, and `repl` is the rebuilt subtree with the mutable-mode
handler overwrite (`n.handlers = handlers` respectively
`n.wildcard.handlers = handlers`) applied at the returned node. -/
structure AddOut where
  tree : Node
  err : Option ErrKind
  nTsr : Bool
  repl : Node

def Node.setTsrTrue : Node → Node
  | .mk t p _ h hw cs w pk pr => .mk t p true h hw cs w pk pr

def Node.setHandlersSome : Node → List Nat → Node
  | .mk t p ts _ hw cs w pk pr, hs => .mk t p ts (some hs) hw cs w pk pr

def Node.setPath : Node → Str → Node
  | .mk t _ ts h hw cs w pk pr, p => .mk t p ts h hw cs w pk pr

def Node.setHasWildTrue : Node → Node
  | .mk t p ts h _ cs w pk pr => .mk t p ts h true cs w pk pr

def Node.setWildcard : Node → Option NodeWildcard → Node
  | .mk t p ts h hw cs _ pk pr, w => .mk t p ts h hw cs w pk pr

def Node.withChildren : Node → List Node → Node
  | .mk t p ts h hw _ w pk pr, cs => .mk t p ts h hw cs w pk pr

def appendChild (n c : Node) : Node :=
  n.withChildren (n.children ++ [c])

/-- The `/`-only trailing-slash placeholder child. -/
def tsrChild : Node :=
  .mk .static ['/'] true none false [] none [] none

/-- The loop in `node.setHandler` that marks the first `/`-fragment child
as a trailing-slash placeholder. -/
def markFirstSlash : List Node → List Node × Bool
  | [] => ([], false)
  | c :: rest =>
    if c.path = ['/'] then (c.setTsrTrue :: rest, true)
    else
      let (rest', f) := markFirstSlash rest
      (c :: rest', f)

/-- `node.setHandler`: refuse a node that already has handlers or is a TSR
placeholder; otherwise install the chain and synthesise the trailing-slash
alternative (mark a `/` child, peel a trailing `/` off the own fragment, or
append a fresh `/` placeholder child). -/
def Node.setHandler (n : Node) (handlers : List Nat) : AddOut :=
  match n with
  | .mk t p tsr h hw cs w pk pr =>
    if h ≠ none ∨ tsr then
      { tree := n, err := some .setHandlerE, nTsr := tsr,
        repl := .mk t p tsr (some handlers) hw cs w pk pr }
    else
      let csf := markFirstSlash cs
      let n1 : Node := .mk t p tsr (some handlers) hw csf.1 w pk pr
      let n2 :=
        if p ≠ ['/'] ∧ ¬csf.2 then
          if p.getLast? = some '/' then (n1.split (p.length - 1)).setTsrTrue
          else appendChild n1 tsrChild
        else n1
      { tree := n2, err := none, nTsr := false, repl := n2 }

/-- The common tail of `node.insert`: install the handlers on the new child
and synthesise its trailing-slash alternative. -/
def finishChild (n child : Node) (handlers : List Nat) : AddOut :=
  let child1 := child.setHandlersSome handlers
  if child1.path = ['/'] then
    let n1 := (appendChild n child1).setTsrTrue
    { tree := n1, err := none, nTsr := false, repl := n1 }
  else if child1.path.getLast? = some '/' then
    let child2 := (child1.split (child1.path.length - 1)).setTsrTrue
    let n1 := appendChild n child2
    { tree := n1, err := none, nTsr := false, repl := n1 }
  else
    let child2 := appendChild child1 tsrChild
    let n1 := appendChild n child2
    { tree := n1, err := none, nTsr := false, repl := n1 }

/-- The wildcard-slot update at the end of the wildcard branch of
`node.insert`: duplicate catch-all, conflicting catch-all, or installation. -/
def applyWildcard (m : Node) (wp : WildPath) (path : Str) (handlers : List Nat) : AddOut :=
  match m.wildcard with
  | some wc =>
    if wc.wpath = path then
      { tree := m, err := some .setWildcardHandlerE, nTsr := m.tsr,
        repl := m.setWildcard (some { wc with whandlers := handlers }) }
    else
      { tree := m, err := some .wildcardConflictE, nTsr := m.tsr, repl := m }
  | none =>
    let m1 := m.setWildcard
      (some { wpath := wp.wpath, paramKey := wp.keys.headD [], whandlers := handlers })
    { tree := m1, err := none, nTsr := false, repl := m1 }

/-- `node.insert`: insert a new branch below `n` for `path`.  The `fuel`
argument is a termination artifact; every recursive call strictly shortens
`path`, so the fuel passed by `Tree.Add` never runs out. -/
def insert : Nat → Node → Str → List Nat → AddOut
  | 0, n, _, _ => { tree := n, err := some .fuelE, nTsr := false, repl := n }
  | fuel + 1, n, path, handlers =>
    let e := segmentEndIndex path true
    let child := newNode path
    match findWildPath path with
    | none => finishChild n child handlers
    | some wp =>
      let j := if wp.start > 0 then wp.start else e
      let child1 := child.setPath (path.take j)
      if wp.start > 0 then
        let out := insert fuel child1 (path.drop j) handlers
        { out with tree := appendChild n out.tree, repl := appendChild n out.repl }
      else
        match wp.pType with
        | .param =>
          let n1 := n.setHasWildTrue
          let child2 : Node := .mk .param (path.take j) false none false [] none wp.keys wp.regex
          let path2 := path.drop wp.wend
          if path2.length > 0 then
            let out := insert fuel child2 path2 handlers
            { out with tree := appendChild n1 out.tree, repl := appendChild n1 out.repl }
          else finishChild n1 child2 handlers
        | .wildcard =>
          if path.length = e ∧ n.path.getLast? ≠ some '/' then
            { tree := n, err := some .wildcardSlashE, nTsr := false, repl := n }
          else if path.length ≠ e then
            { tree := n, err := some .wildcardNotAtEndE, nTsr := false, repl := n }
          else if n.path ≠ ['/'] ∧ n.path.getLast? = some '/' then
            let nSplit := (n.split (n.path.length - 1)).setTsrTrue
            match nSplit.children with
            | inner :: restCs =>
              let out := applyWildcard inner wp path handlers
              { out with tree := nSplit.withChildren (out.tree :: restCs),
                         repl := nSplit.withChildren (out.repl :: restCs) }
            | [] => { tree := nSplit, err := some .invalidE, nTsr := false, repl := nSplit }
          else applyWildcard n wp path handlers
        | _ => { tree := n, err := some .invalidE, nTsr := false, repl := n }

/-- Outcome of the child loop of `node.add`: the updated child list (and its
mutable-overwrite variant), whether the parent's `tsr` flag was set, and the
error information. -/
structure LoopOut where
  cs : List Node
  csRepl : List Node
  parentTsr : Bool
  err : Option ErrKind
  nTsr : Bool

/-- The common tail of the child loop of `node.add`
(`if path == "/" { n.tsr = true }; return child.setHandler(...)`). -/
def commonTail (child : Node) (rest : List Node) (path : Str) (handlers : List Nat) :
    Option LoopOut :=
  let out := child.setHandler handlers
  some { cs := out.tree :: rest, csRepl := out.repl :: rest, parentTsr := path = ['/'],
         err := out.err, nTsr := out.nTsr }

/-- The child loop of `node.add`, parameterised by the recursive call `go`
(instantiated with `addFn fuel` below).  `none` means no child matched and
the caller inserts at the parent — this covers both loop exhaustion and the
param branch's `return n.insert(path, ...)`. -/
def addLoop (go : Node → Str → List Nat → AddOut) :
    List Node → Str → List Nat → Option LoopOut
  | [], _, _ => none
  | child :: rest, path, handlers =>
    let i := longestCommonPrefixLen path child.path
    if i = 0 then
      (addLoop go rest path handlers).map
        (fun lo => { lo with cs := child :: lo.cs, csRepl := child :: lo.csRepl })
    else
      match child.nType with
      | .static =>
        let child1 := if child.path.length > i then child.split i else child
        if path.length > i then
          let out := go child1 (path.drop i) handlers
          some { cs := out.tree :: rest, csRepl := out.repl :: rest, parentTsr := false,
                 err := out.err, nTsr := out.nTsr }
        else commonTail child1 rest path handlers
      | .param =>
        match findWildPath path with
        | none =>
          some { cs := child :: rest, csRepl := child :: rest, parentTsr := false,
                 err := some .invalidE, nTsr := false }
        | some wp =>
          let isParam := wp.start = 0 ∧ wp.pType = .param
          let hasHandler := child.handlers ≠ none
          if path.length = wp.wend ∧ isParam ∧ hasHandler then
            if child.path = path then
              some { cs := child :: rest, csRepl := child.setHandlersSome handlers :: rest,
                     parentTsr := false, err := some .setHandlerE, nTsr := child.tsr }
            else
              some { cs := child :: rest, csRepl := child :: rest, parentTsr := false,
                     err := some .wildPathConflictE, nTsr := false }
          else if path.length > i then
            if child.path = wp.wpath then
              let out := go child (path.drop i) handlers
              some { cs := out.tree :: rest, csRepl := out.repl :: rest, parentTsr := false,
                     err := out.err, nTsr := out.nTsr }
            else none
          else commonTail child rest path handlers
      | _ => commonTail child rest path handlers

/-- `node.add`: install the handlers at the node for the given remaining
path, descending through matching children.  Fuel as in `insert`. -/
def addFn : Nat → Node → Str → List Nat → AddOut
  | 0, n, _, _ => { tree := n, err := some .fuelE, nTsr := false, repl := n }
  | fuel + 1, n, path, handlers =>
    if path.length = 0 then n.setHandler handlers
    else
      match addLoop (fun c p hs => addFn fuel c p hs) n.children path handlers with
      | some lo =>
        let base := if lo.parentTsr then n.setTsrTrue else n
        { tree := base.withChildren lo.cs, err := lo.err, nTsr := lo.nTsr,
          repl := base.withChildren lo.csRepl }
      | none => insert fuel n path handlers

/-- Child ordering (`node.Less`): smaller kind value first (static before
wildcard before param), then more children first. -/
def nodeLEb (a b : Node) : Bool :=
  a.nType.idx < b.nType.idx ∨
    (a.nType.idx = b.nType.idx ∧ b.children.length ≤ a.children.length)

def orderedInsertNode (x : Node) : List Node → List Node
  | [] => [x]
  | y :: ys => if nodeLEb x y then x :: y :: ys else y :: orderedInsertNode x ys

/-- Deterministic sort satisfying the postcondition of Go's `sort.Sort`
with `node.Less` (the Go sort is unstable; ties are broken here by
insertion order, which no claim depends on). -/
def insertionSortNodes : List Node → List Node
  | [] => []
  | x :: xs => orderedInsertNode x (insertionSortNodes xs)

mutual

/-- `node.sort`: recursively sort all children lists. -/
def sortNode : Node → Node
  | .mk t p ts h hw cs w pk pr =>
    .mk t p ts h hw (insertionSortNodes (sortNodes cs)) w pk pr

def sortNodes : List Node → List Node
  | [] => []
  | c :: cs' => sortNode c :: sortNodes cs'

end

def Node.setNTypeRoot : Node → Node
  | .mk _ p ts h hw cs w pk pr => .mk .root p ts h hw cs w pk pr

/-- `tree.Add`: validate, split the root on the common prefix, run
`node.add`, handle mutable-mode overwrites, pull up a fresh root when the
old root had an empty fragment, and sort.  Panics are modelled as `.error`. -/
def Tree.Add (t : Tree) (path : Str) (handlers : List Nat) : Except ErrKind Tree :=
  if path.head? ≠ some '/' then .error .invalidE
  else
    let i := longestCommonPrefixLen path t.root.path
    let root0 := if 0 < i ∧ i < t.root.path.length then t.root.split i else t.root
    let path1 := if 0 < i then path.drop i else path
    let out := addFn (2 * path1.length + 2) root0 path1 handlers
    match out.err with
    | some k =>
      if t.Mutable ∧ ¬out.nTsr ∧ (k = .setHandlerE ∨ k = .setWildcardHandlerE) then
        .ok { t with root := out.repl }
      else .error k
    | none =>
      let root1 := out.tree
      if root1.path.length = 0 then
        match root1.children with
        | c :: _ => .ok { t with root := sortNode c.setNTypeRoot }
        | [] => .error .invalidE
      else .ok { t with root := sortNode root1 }

/-- Result of the case-insensitive walk: found/tsr flags plus the buffer
contents (`bytebufferpool` writes are modelled by threading the buffer
string; `bufferRemoveString` after a failed branch restores the previous
buffer, so failing branches simply return the incoming buffer).
`panicked` models the `"invalid node type"` panic. -/
inductive FindRes where
  | res (found tsr : Bool) (buf : Str)
  | panicked
deriving DecidableEq, Repr

/-- The body of `node.find`: case-fold the own fragment and either descend
(via `rec`, the child search of this node) or answer at this node.  Shared
between the root entry `findN` and the static-child case of the loop so
that the recursion below is structural. -/
def findCore (npath : Str) (ntsr : Bool) (nh : Option (List Nat))
    (rec : Str → Str → FindRes) (path buf : Str) : FindRes :=
  if path.length > npath.length then
    if ¬ equalFold (path.take npath.length) npath then .res false false buf
    else
      match rec (path.drop npath.length) (buf ++ npath) with
      | .panicked => .panicked
      | .res true tsr buf2 => .res true tsr buf2
      | .res false _ _ => .res false false buf
  else if equalFold path npath then
    if ntsr then
      if npath = ['/'] then .res true true buf
      else .res true true (buf ++ npath ++ ['/'])
    else if nh ≠ none then .res true false (buf ++ npath)
    else .res false false buf
  else .res false false buf

mutual

/-- The child loop of `node.findFromChild`, with the parent's wildcard slot
consulted after the loop; a recursive `child.findFromChild(p)` is written
as `findLoop child.children child.wildcard p` so the recursion is
structural. -/
def findLoop : List Node → Option NodeWildcard → Str → Str → FindRes
  | [], w, path, buf =>
    match w with
    | some _ => .res true false (buf ++ path)
    | none => .res false false buf
  | child :: rest, w, path, buf =>
    match tryFindChild child path buf with
    | .panicked => .panicked
    | .res true tsr buf2 => .res true tsr buf2
    | .res false _ _ => findLoop rest w path buf

/-- One iteration of the `node.findFromChild` loop. -/
def tryFindChild : Node → Str → Str → FindRes
  | .mk ct cpath ctsr chh _ ccs ccw _ ccpr, path, buf =>
    match ct with
    | .static =>
      findCore cpath ctsr chh (fun p b => findLoop ccs ccw p b) path buf
    | .param =>
      let e0 := segmentEndIndex path false
      match (match ccpr with
             | none => some e0
             | some rx =>
               match rx (path.take e0) with
               | i0 :: i1 :: _ => if i0 ≠ 0 then none else some i1
               | _ => none) with
      | none => .res false false buf
      | some e =>
        let buf1 := buf ++ path.take e
        if path.length > e then
          match findLoop ccs ccw (path.drop e) buf1 with
          | .panicked => .panicked
          | .res true tsr buf2 => .res true tsr buf2
          | .res false _ _ => .res false false buf
        else if path.length = e then
          if ctsr then .res true true (buf1 ++ ['/'])
          else if chh ≠ none then .res true false buf1
          else .res false false buf
        else .res false false buf
    | _ => .panicked

end

/-- `node.find` at a node: `findCore` with the node's own child search. -/
def findN (n : Node) (path buf : Str) : FindRes :=
  findCore n.path n.tsr n.handlers
    (fun p b => findLoop n.children n.wildcard p b) path buf

/-- `tree.FindCaseInsensitivePath`: run the walk; reset the buffer when not
found or when only a trailing-slash fix would match but fixing is off. -/
def Tree.FindCaseInsensitivePath (t : Tree) (path : Str) (fixTrailingSlash : Bool) :
    Option (Bool × Str) :=
  match findN t.root path [] with
  | .panicked => none
  | .res found tsr buf =>
    if ¬found ∨ (tsr ∧ ¬fixTrailingSlash) then some (false, [])
    else some (true, buf)

/-- `cleanPath` (src/error.go): `strings.TrimSuffix(path, ".")` — remove one
trailing `'.'` if present, nothing else. -/
def cleanPath (path : Str) : Str :=
  if path.getLast? = some '.' then path.dropLast else path

/-- `Nexora.tryRedirect` as a pure function: the chosen status code, the
trailing-slash toggle target, or the fixed-path recovery target; `none`
when no redirect is issued.  A find-walk panic is conflated with `none`
(unreachable for trees built by `Add`). -/
def tryRedirect (rts rfp : Bool) (t : Tree) (tsr : Bool)
    (method path rawPath rawQuery : Str) : Option (Str × Nat) :=
  let code := if method = "GET".data then 301 else 308
  if tsr ∧ rts then
    let uri :=
      if path.length > 1 ∧ path.getLast? = some '/' then path.dropLast
      else path ++ ['/']
    let uri2 := if rawQuery.length > 0 then uri ++ ['?'] ++ rawQuery else uri
    some (uri2, code)
  else if rfp then
    match t.FindCaseInsensitivePath (cleanPath rawPath) rts with
    | some (true, buf) =>
      let uri2 := if rawQuery.length > 0 then buf ++ ['?'] ++ rawQuery else buf
      some (uri2, code)
    | _ => none
  else none

/-- The router state consulted by dispatch (`Nexora`).  Only the fields the
dispatcher reads are modelled; handler installation state is carried by the
trees and `registeredPaths`. -/
structure Router where
  trees : List (Option Tree)
  customMethodsIndex : List (Str × Nat)
  registeredPaths : List (Str × List Str)
  RedirectTrailingSlash : Bool
  RedirectFixedPath : Bool
  HandleMethodNotAllowed : Bool
  HandleOPTIONS : Bool
  globalAllowed : Str

def lookupStr {α : Type} : List (Str × α) → Str → Option α
  | [], _ => none
  | (k, v) :: rest, key => if k = key then some v else lookupStr rest key

/-- `Nexora.methodIndexOf`; `none` models the `-1` sentinel. -/
def methodIndexOf (r : Router) (method : Str) : Option Nat :=
  if method = "GET".data then some 0
  else if method = "HEAD".data then some 1
  else if method = "POST".data then some 2
  else if method = "PUT".data then some 3
  else if method = "PATCH".data then some 4
  else if method = "DELETE".data then some 5
  else if method = "CONNECT".data then some 6
  else if method = "OPTIONS".data then some 7
  else if method = "TRACE".data then some 8
  else if method = "*".data then some 9
  else lookupStr r.customMethodsIndex method

def treeAt (r : Router) (i : Nat) : Option Tree :=
  match r.trees.get? i with
  | some o => o
  | none => none

/-- Go bytewise string comparison `a < b` (ASCII). -/
def strLtB : Str → Str → Bool
  | [], [] => false
  | [], _ :: _ => true
  | _ :: _, [] => false
  | a :: as, b :: bs => if a < b then true else if a = b then strLtB as bs else false

def orderedInsertStr (x : Str) : List Str → List Str
  | [] => [x]
  | y :: ys => if strLtB x y then x :: y :: ys else y :: orderedInsertStr x ys

/-- The insertion sort in `Nexora.allowed` (ascending, stable). -/
def insertionSortStr : List Str → List Str
  | [] => []
  | x :: xs => orderedInsertStr x (insertionSortStr xs)

/-- `strings.Join(l, ", ")`. -/
def joinComma : List Str → Str
  | [] => []
  | [x] => x
  | x :: xs => x ++ ", ".data ++ joinComma xs

/-- The method-collection loop of `Nexora.allowed`: every registered method
other than the request method and OPTIONS whose tree matches the path. -/
def allowedLoop (r : Router) (path reqMethod : Str) :
    List (Str × List Str) → List Str
  | [] => []
  | (method, _) :: rest =>
    if method = reqMethod ∨ method = "OPTIONS".data then
      allowedLoop r path reqMethod rest
    else
      match methodIndexOf r method with
      | none => allowedLoop r path reqMethod rest
      | some idx =>
        if r.trees.length ≤ idx then allowedLoop r path reqMethod rest
        else
          match treeAt r idx with
          | none => allowedLoop r path reqMethod rest
          | some t =>
            match t.Get path with
            | .ok (some _) _ _ => method :: allowedLoop r path reqMethod rest
            | _ => allowedLoop r path reqMethod rest

/-- The shared tail of `Nexora.allowed`: append OPTIONS when anything was
collected, insertion-sort ascending, join with `", "`; empty collection
yields the empty string. -/
def allowedFinish (ms : List Str) : Str :=
  if ms = [] then []
  else joinComma (insertionSortStr (ms ++ ["OPTIONS".data]))

/-- `Nexora.allowed`. -/
def allowed (r : Router) (path reqMethod : Str) : Str :=
  if path = "*".data ∨ path = "/*".data then
    if reqMethod = [] then
      allowedFinish ((r.registeredPaths.filter (fun p => p.1 ≠ "OPTIONS".data)).map (fun p => p.1))
    else r.globalAllowed
  else allowedFinish (allowedLoop r path reqMethod r.registeredPaths)

/-- One observable dispatch action of `ServeHTTP`. -/
inductive Step where
  | invoke (handlers : List Nat) (params : List (Str × Str))
  | redirect (uri : Str) (code : Nat)
  | optionsReply (allow : Str)
  | methodNotAllowed (allow : Str)
  | notFound
  | panicked
deriving DecidableEq, Repr

/-- The OPTIONS / 405 / 404 stages at the end of `ServeHTTP`. -/
def serveTail (r : Router) (method path : Str) : List Step :=
  if r.HandleOPTIONS ∧ method = "OPTIONS".data then
    let a0 := allowed r path "OPTIONS".data
    let a := if a0 = [] then allowed r "*".data "OPTIONS".data else a0
    if a ≠ [] then [.optionsReply a] else [.notFound]
  else if r.HandleMethodNotAllowed then
    let a := allowed r path method
    if a ≠ [] then [.methodNotAllowed a] else [.notFound]
  else [.notFound]

/-- `Nexora.ServeHTTP` as a pure dispatch trace.  `herr hs` tells whether
invoking the chain `hs` returns an error (`c.Next()`).  The wildcard-method
stage reproduces the source faithfully: a successful invocation there is
followed by the redirect attempt and, when that declines, by the
OPTIONS/405/404 stages — the `return` present in the per-method stage is
missing in the source's wildcard stage. -/
def serve (r : Router) (herr : List Nat → Bool) (method path rawPath rawQuery : Str) :
    List Step :=
  let stage1 : Option (List Step) :=
    match methodIndexOf r method with
    | none => none
    | some idx =>
      match treeAt r idx with
      | none => none
      | some t =>
        match t.Get path with
        | .invalid => some [.panicked]
        | .ok (some hs) params _ => some [.invoke hs params]
        | .ok none _ tsr =>
          if method ≠ "CONNECT".data ∧ path ≠ ['/'] then
            match tryRedirect r.RedirectTrailingSlash r.RedirectFixedPath t tsr
                method path rawPath rawQuery with
            | some (uri, code) => some [.redirect uri code]
            | none => none
          else none
  match stage1 with
  | some steps => steps
  | none =>
    match treeAt r 9 with
    | some t =>
      match t.Get path with
      | .invalid => [.panicked]
      | .ok (some hs) params tsr =>
        if herr hs then [.invoke hs params]
        else
          let rd :=
            if method ≠ "CONNECT".data ∧ path ≠ ['/'] then
              tryRedirect r.RedirectTrailingSlash r.RedirectFixedPath t tsr
                method path rawPath rawQuery
            else none
          match rd with
          | some (uri, code) => [.invoke hs params, .redirect uri code]
          | none => .invoke hs params :: serveTail r method path
      | .ok none _ _ => serveTail r method path
    | none => serveTail r method path

/-- The defaults of `New()`: ten empty tree slots, all policy flags on. -/
def newRouter : Router :=
  { trees := List.replicate 10 none, customMethodsIndex := [], registeredPaths := [],
    RedirectTrailingSlash := true, RedirectFixedPath := true,
    HandleMethodNotAllowed := true, HandleOPTIONS := true, globalAllowed := [] }

/-- `registeredPaths[method] = append(registeredPaths[method], path)`. -/
def addRegisteredPath : List (Str × List Str) → Str → Str → List (Str × List Str)
  | [], m, p => [(m, [p])]
  | (k, ps) :: rest, m, p =>
    if k = m then (k, ps ++ [p]) :: rest else (k, ps) :: addRegisteredPath rest m p

/-- `Nexora.Handle` for methods of the built-in table and paths without
optional parameters (`parseConstraintsRoute` and `getOptionalPaths` are the
identity for every path used below); custom-method slot allocation is not
modelled. -/
def Router.handle (r : Router) (method path : Str) (handlers : List Nat) :
    Except ErrKind Router :=
  if method = [] ∨ handlers = [] ∨ path.head? ≠ some '/' then .error .invalidE
  else
    let r1 := { r with registeredPaths := addRegisteredPath r.registeredPaths method path }
    match methodIndexOf r1 method with
    | none => .error .invalidE
    | some idx =>
      let hadTree := (treeAt r1 idx).isSome
      let t0 := match treeAt r1 idx with
        | some t => t
        | none => newTree
      let r2 := if hadTree then r1 else { r1 with globalAllowed := allowed r1 "*".data [] }
      match t0.Add path handlers with
      | .ok t' => .ok { r2 with trees := r2.trees.set idx (some t') }
      | .error k => .error k

/-!  Statement scaffolding: total wrappers that expose registration results
in decidable form, and the concrete trees and routers the claims below are
evaluated on. -/

/-- The tree after a registration, unchanged if the registration failed. -/
def addOrSame (t : Tree) (p : Str) (hs : List Nat) : Tree :=
  match t.Add p hs with
  | .ok t' => t'
  | .error _ => t

/-- The error of a registration, `none` on success. -/
def addErr (t : Tree) (p : Str) (hs : List Nat) : Option ErrKind :=
  match t.Add p hs with
  | .ok _ => none
  | .error k => some k

/-- Register then look up; `none` when the registration failed. -/
def addGet (t : Tree) (p : Str) (hs : List Nat) (q : Str) : Option GetRes :=
  match t.Add p hs with
  | .ok t' => some (t'.Get q)
  | .error _ => none

/-- The router after a registration, unchanged if it failed. -/
def handleOrSame (r : Router) (m p : Str) (hs : List Nat) : Router :=
  match r.handle m p hs with
  | .ok r' => r'
  | .error _ => r

/-- A request path with its trailing slash toggled (appended if absent,
removed if present), as in claim C3. -/
def toggleSlash (p : Str) : Str :=
  if p.getLast? = some '/' then p.dropLast else p ++ ['/']

/-- Trees reachable through the public build interface: the empty tree,
mutability toggling, and successful `Add` calls. -/
inductive Built : Tree → Prop where
  | base : Built newTree
  | mutbl (t : Tree) (b : Bool) : Built t → Built { t with Mutable := b }
  | step (t : Tree) (p : Str) (hs : List Nat) (t' : Tree) :
      Built t → t.Add p hs = .ok t' → Built t'

def staticParamTree : Tree :=
  addOrSame (addOrSame newTree "/{name}".data [11]) "/static".data [12]

def productTree : Tree := addOrSame newTree "/product/{pid:[0-9]+}".data [4]

def userIdTree : Tree := addOrSame newTree "/user/{id}".data [5]

def catchAllTree : Tree := addOrSame newTree "/static/{filepath:*}".data [8]

def paramWildTree : Tree :=
  addOrSame (addOrSame newTree "/{name}".data [1]) "/{w:*}".data [2]

def dupTree : Tree := addOrSame newTree "/dup".data [1]

def wildOnlyRouter : Router := handleOrSame newRouter "*".data "/w".data [7]

def onlyGetRouter : Router := handleOrSame newRouter "GET".data "/onlyget".data [1]

def homeRouter : Router := handleOrSame newRouter "GET".data "/home".data [1]

def homePostRouter : Router := handleOrSame homeRouter "POST".data "/home".data [2]

/-- C2: in the tree holding `/product/{pid:[0-9]+}` (registration succeeds),
`Get("/product/456")` returns the registered handlers with `pid` bound to
`"456"`, and `Get("/product/abc")` is a miss with nil handlers: the segment
regex is run anchored at the start of the segment and on failure matching
falls through to the (absent) next sibling. -/
theorem c2_typed_param_regex_anchored :
    addErr newTree "/product/{pid:[0-9]+}".data [4] = none ∧
    productTree.Get "/product/456".data =
      .ok (some [4]) [("pid".data, "456".data)] false ∧
    productTree.Get "/product/abc".data = .ok none [] false := by
  refine ⟨by decide, by decide, by decide⟩

/-- C4: whenever the lookup reported `tsr = true`, `RedirectTrailingSlash`
is enabled, the method is not CONNECT and the path is not `/` (the guards
`ServeHTTP` applies before calling `tryRedirect`), the reply is a redirect
whose code is 301 for GET and 308 otherwise, whose target is the request
path with the trailing slash toggled, and whose query is appended verbatim
after `?`.  The two closed conjuncts show the full dispatch doing this for
a GET (301) and a POST (308). -/
theorem c4_tsr_redirect_code_and_target :
    (∀ (rfp : Bool) (t : Tree) (method path rawPath rawQuery : Str),
      method ≠ "CONNECT".data → path ≠ ['/'] →
      tryRedirect true rfp t true method path rawPath rawQuery =
        some (toggleSlash path ++ (if rawQuery = [] then [] else '?' :: rawQuery),
              if method = "GET".data then 301 else 308)) ∧
    serve homeRouter (fun _ => false) "GET".data "/home/".data "/home/".data "q=1".data =
      [.redirect "/home?q=1".data 301] ∧
    serve homePostRouter (fun _ => false) "POST".data "/home/".data "/home/".data [] =
      [.redirect "/home".data 308] := by
  refine ⟨?_, by decide, by decide⟩
  intro rfp t method path rawPath rawQuery _hm hp
  have hx : (if path.length > 1 ∧ path.getLast? = some '/'
              then path.dropLast else path ++ ['/']) = toggleSlash path := by
    unfold toggleSlash
    by_cases h : path.getLast? = some '/'
    · have hlen : path.length > 1 := by
        match path, h with
        | [a], h =>
          have : a = '/' := by simpa [List.getLast?] using h
          exact absurd (by simp [this]) hp
        | a :: b :: bs, _ => simp
      simp [h, hlen]
    · simp [h]
  have hq : ∀ u : Str, (if rawQuery.length > 0 then u ++ ['?'] ++ rawQuery else u) =
      u ++ (if rawQuery = [] then [] else '?' :: rawQuery) := by
    intro u
    cases rawQuery with
    | nil => simp
    | cons q qs => simp
  simp only [tryRedirect]
  rw [if_pos ⟨trivial, trivial⟩, hq, hx]

/-- Witness for C4 at a concrete input: a PUT on `/x` with empty query
redirects to `/x/` with code 308. -/
theorem c4_tsr_redirect_witness :
    tryRedirect true true dupTree true "PUT".data "/x".data [] [] =
      some ("/x/".data, 308) := by
  have h := c4_tsr_redirect_code_and_target.1 true dupTree "PUT".data "/x".data [] []
    (by decide) (by decide)
  exact h.trans (by decide)

/-- C5 (code bug): with only the wildcard-method route `* /w` registered,
a GET of `/w` finds the handler in the wildcard-method tree — but after the
successful invocation the dispatcher does not stop: the source's wildcard
stage is missing the `return` that the per-method stage has, so dispatch
falls through into method-not-allowed handling and additionally replies
405 with `Allow: *, OPTIONS`. -/
theorem c5_wildcard_hit_not_terminal :
    (treeAt wildOnlyRouter 9).map (fun t => t.Get "/w".data) =
      some (.ok (some [7]) [] false) ∧
    serve wildOnlyRouter (fun _ => false) "GET".data "/w".data [] [] =
      [.invoke [7] [], .methodNotAllowed "*, OPTIONS".data] := by
  refine ⟨by decide, by decide⟩

/-- C6 (code bug): `cleanPath` is `strings.TrimSuffix(path, ".")` — it only
strips one trailing dot and performs none of the documented cleaning: runs
of `/` survive (`//abc//` is returned unchanged, not `/abc/`) and `..`
segments survive (`../../abc` is returned unchanged, not `/abc`). -/
theorem c6_cleanPath_trimsuffix_only :
    cleanPath "//abc//".data = "//abc//".data ∧
    cleanPath "//abc//".data ≠ "/abc/".data ∧
    cleanPath "../../abc".data = "../../abc".data ∧
    cleanPath "../../abc".data ≠ "/abc".data ∧
    cleanPath "/abc.".data = "/abc".data := by
  refine ⟨by decide, by decide, by decide, by decide, by decide⟩

/-- C8: registering `/dup` twice in non-mutable mode fails with the
handler-conflict error; in mutable mode the second registration replaces
the chain in place and a subsequent `Get` returns the new chain. -/
theorem c8_duplicate_add_mutable_overwrite :
    addErr newTree "/dup".data [1] = none ∧
    addErr dupTree "/dup".data [2] = some .setHandlerE ∧
    addGet { dupTree with Mutable := true } "/dup".data [2] "/dup".data =
      some (.ok (some [2]) [] false) := by
  refine ⟨by decide, by decide, by decide⟩

/-- C9 (code bug): case-insensitive recovery is not idempotent.  On the
tree holding `/static/{filepath:*}` the input `/STATIC` recovers
successfully to `/static/` (a trailing-slash fix), but running recovery on
`/static/` itself fails — even though `Get("/static/")` matches the
catch-all with an empty capture.  The exact-match branch of `node.find`
lacks the wildcard case that `node.getFromChild` has, so the corrected
path the router would serve is rejected by a second recovery. -/
theorem c9_case_recovery_not_idempotent :
    addErr newTree "/static/{filepath:*}".data [8] = none ∧
    catchAllTree.FindCaseInsensitivePath "/STATIC".data true =
      some (true, "/static/".data) ∧
    catchAllTree.FindCaseInsensitivePath "/static/".data true = some (false, []) ∧
    catchAllTree.Get "/static/".data =
      .ok (some [8]) [("filepath".data, [])] false := by
  refine ⟨by decide, by decide, by decide, by decide⟩

/-!  Sortedness of the child ordering. -/

theorem nodeLEb_total (a b : Node) : nodeLEb a b = true ∨ nodeLEb b a = true := by
  simp only [nodeLEb, decide_eq_true_eq]
  omega

theorem nodeLEb_trans {a b c : Node} (h1 : nodeLEb a b = true) (h2 : nodeLEb b c = true) :
    nodeLEb a c = true := by
  simp only [nodeLEb, decide_eq_true_eq] at h1 h2 ⊢
  omega

theorem mem_orderedInsertNode {x z : Node} {l : List Node}
    (h : z ∈ orderedInsertNode x l) : z = x ∨ z ∈ l := by
  induction l with
  | nil => simpa [orderedInsertNode] using h
  | cons y ys ih =>
    by_cases hxy : nodeLEb x y = true
    · simpa [orderedInsertNode, hxy] using h
    · simp only [orderedInsertNode, hxy] at h
      rcases List.mem_cons.mp h with hz | hz
      · exact Or.inr (by simp [hz])
      · rcases ih hz with h' | h'
        · exact Or.inl h'
        · exact Or.inr (List.mem_cons_of_mem _ h')

theorem pairwise_orderedInsertNode (x : Node) (l : List Node)
    (h : l.Pairwise (fun a b => nodeLEb a b = true)) :
    (orderedInsertNode x l).Pairwise (fun a b => nodeLEb a b = true) := by
  induction l with
  | nil => simp [orderedInsertNode]
  | cons y ys ih =>
    rcases List.pairwise_cons.mp h with ⟨hy, hys⟩
    by_cases hxy : nodeLEb x y = true
    · simp only [orderedInsertNode, hxy, if_true]
      refine List.pairwise_cons.mpr ⟨?_, h⟩
      intro z hz
      rcases List.mem_cons.mp hz with hz | hz
      · exact hz ▸ hxy
      · exact nodeLEb_trans hxy (hy z hz)
    · simp only [orderedInsertNode, hxy, if_false]
      refine List.pairwise_cons.mpr ⟨?_, ih hys⟩
      intro z hz
      rcases mem_orderedInsertNode hz with hz | hz
      · subst hz
        rcases nodeLEb_total y z with h' | h'
        · exact h'
        · exact absurd h' hxy
      · exact hy z hz

theorem pairwise_insertionSortNodes (l : List Node) :
    (insertionSortNodes l).Pairwise (fun a b => nodeLEb a b = true) := by
  induction l with
  | nil => simp [insertionSortNodes]
  | cons x xs ih => exact pairwise_orderedInsertNode x (insertionSortNodes xs) ih

theorem sortNode_children_pairwise (n : Node) :
    ((sortNode n).children).Pairwise (fun a b => nodeLEb a b = true) := by
  match n with
  | .mk t p ts h hw cs w pk pr =>
    simpa [sortNode, Node.children] using
      pairwise_insertionSortNodes (sortNodes cs)

/-- C1: lookup precedence is deterministic.  After every sort (the last
step of every `Add`) each node's children are ordered by ascending kind
value — static (1) before wildcard (2) before param (3) — so the in-order
child scan of `getFromChild` tries every static child before any param
child, and a node's catch-all slot is only consulted after all children
fail.  Concretely: with `/{name}` then `/static` registered, `/static`
resolves to the static handlers with an empty parameter map (and `/zzz`
still resolves to the param route); with `/{name}` and a catch-all `/{w:*}`
registered, `/x` resolves to the param route, not the catch-all. -/
theorem c1_lookup_precedence :
    (∀ n : Node, ((sortNode n).children).Pairwise
        (fun a b => a.nType.idx ≤ b.nType.idx)) ∧
    addErr newTree "/{name}".data [11] = none ∧
    addErr (addOrSame newTree "/{name}".data [11]) "/static".data [12] = none ∧
    staticParamTree.Get "/static".data = .ok (some [12]) [] false ∧
    staticParamTree.Get "/zzz".data =
      .ok (some [11]) [("name".data, "zzz".data)] false ∧
    paramWildTree.Get "/x".data = .ok (some [1]) [("name".data, "x".data)] false ∧
    paramWildTree.Get "/x/y".data = .ok (some [2]) [("w".data, "x/y".data)] false := by
  refine ⟨?_, by decide, by decide, by decide, by decide, by decide, by decide⟩
  intro n
  refine (sortNode_children_pairwise n).imp ?_
  intro a b hab
  simp only [nodeLEb, decide_eq_true_eq] at hab
  omega

/-!  The Allow computation (claim C7): the loop as a filter, and the
sortedness of the output. -/

/-- Whether `method`'s tree matches `path` with non-nil handlers, exactly
as one iteration of the `allowed` loop tests it. -/
def treeMatches (r : Router) (method path : Str) : Bool :=
  match methodIndexOf r method with
  | none => false
  | some idx =>
    if r.trees.length ≤ idx then false
    else
      match treeAt r idx with
      | none => false
      | some t =>
        match t.Get path with
        | .ok (some _) _ _ => true
        | _ => false

/-- The claim's description of one collected entry: a registered method
other than the request method and OPTIONS whose tree matches the path. -/
def allowedPred (r : Router) (path reqMethod : Str) (e : Str × List Str) : Bool :=
  ¬(e.1 = reqMethod) ∧ ¬(e.1 = "OPTIONS".data) ∧ treeMatches r e.1 path

/-- The claim's collected method set, as a filter over the registry. -/
def matchingMethods (r : Router) (path reqMethod : Str) : List Str :=
  (r.registeredPaths.filter (allowedPred r path reqMethod)).map (fun e => e.1)

/-- The value claim C7 asserts for `allowed`: the matching methods plus
OPTIONS, sorted ascending, joined with `", "`. -/
def claimAllowed (r : Router) (path reqMethod : Str) : Str :=
  joinComma (insertionSortStr (matchingMethods r path reqMethod ++ ["OPTIONS".data]))

theorem allowedLoop_eq_filter (r : Router) (path reqMethod : Str)
    (l : List (Str × List Str)) :
    allowedLoop r path reqMethod l =
      (l.filter (allowedPred r path reqMethod)).map (fun e => e.1) := by
  induction l with
  | nil => rfl
  | cons e rest ih =>
    obtain ⟨method, ps⟩ := e
    by_cases h1 : method = reqMethod ∨ method = "OPTIONS".data
    · have hp : allowedPred r path reqMethod (method, ps) = false := by
        rcases h1 with h | h <;> simp [allowedPred, h]
      simp [allowedLoop, h1, hp, ih]
    · have hne : ¬ method = reqMethod ∧ ¬ method = "OPTIONS".data := by
        constructor <;> intro h <;> exact h1 (by tauto)
      have hp : allowedPred r path reqMethod (method, ps) = treeMatches r method path := by
        simp [allowedPred, hne.1, hne.2]
      cases hmi : methodIndexOf r method with
      | none =>
        have hm : treeMatches r method path = false := by simp [treeMatches, hmi]
        simp [allowedLoop, h1, hmi, hp, hm, ih]
      | some idx =>
        by_cases hlen : r.trees.length ≤ idx
        · have hm : treeMatches r method path = false := by
            simp [treeMatches, hmi, hlen]
          simp [allowedLoop, h1, hmi, hlen, hp, hm, ih]
        · cases hta : treeAt r idx with
          | none =>
            have hm : treeMatches r method path = false := by
              simp [treeMatches, hmi, hlen, hta]
            simp [allowedLoop, h1, hmi, hlen, hta, hp, hm, ih]
          | some t =>
            cases hg : t.Get path with
            | invalid =>
              have hm : treeMatches r method path = false := by
                simp [treeMatches, hmi, hlen, hta, hg]
              simp [allowedLoop, h1, hmi, hlen, hta, hg, hp, hm, ih]
            | ok hh pp bb =>
              cases hh with
              | none =>
                have hm : treeMatches r method path = false := by
                  simp [treeMatches, hmi, hlen, hta, hg]
                simp [allowedLoop, h1, hmi, hlen, hta, hg, hp, hm, ih]
              | some hs =>
                have hm : treeMatches r method path = true := by
                  simp [treeMatches, hmi, hlen, hta, hg]
                simp [allowedLoop, h1, hmi, hlen, hta, hg, hp, hm, ih]

theorem strLtB_trans {a b c : Str} (h1 : strLtB a b = true) (h2 : strLtB b c = true) :
    strLtB a c = true := by
  induction a generalizing b c with
  | nil =>
    cases b with
    | nil => simp [strLtB] at h1
    | cons y ys =>
      cases c with
      | nil => simp [strLtB] at h2
      | cons z zs => simp [strLtB]
  | cons x xs ih =>
    cases b with
    | nil => simp [strLtB] at h1
    | cons y ys =>
      cases c with
      | nil => simp [strLtB] at h2
      | cons z zs =>
        simp only [strLtB] at h1 h2 ⊢
        rcases lt_trichotomy x y with hxy | hxy | hxy
        · rcases lt_trichotomy y z with hyz | hyz | hyz
          · simp [lt_trans hxy hyz]
          · subst hyz; simp [hxy]
          · rw [if_neg (lt_asymm hyz), if_neg (ne_of_gt hyz)] at h2
            exact absurd h2 (by simp)
        · subst hxy
          rcases lt_trichotomy x z with hyz | hyz | hyz
          · simp [hyz]
          · subst hyz
            rw [if_neg (lt_irrefl x), if_pos rfl] at h1 h2 ⊢
            exact ih h1 h2
          · rw [if_neg (lt_asymm hyz), if_neg (ne_of_gt hyz)] at h2
            exact absurd h2 (by simp)
        · rw [if_neg (lt_asymm hxy), if_neg (ne_of_gt hxy)] at h1
          exact absurd h1 (by simp)

theorem strLtB_cases (a b : Str) :
    strLtB a b = true ∨ a = b ∨ strLtB b a = true := by
  induction a generalizing b with
  | nil =>
    cases b with
    | nil => simp [strLtB]
    | cons y ys => simp [strLtB]
  | cons x xs ih =>
    cases b with
    | nil => simp [strLtB]
    | cons y ys =>
      rcases lt_trichotomy x y with h | h | h
      · simp [strLtB, h]
      · subst h
        rcases ih ys with h' | h' | h'
        · exact Or.inl (by simp [strLtB, h'])
        · exact Or.inr (Or.inl (by simp [h']))
        · exact Or.inr (Or.inr (by simp [strLtB, h']))
      · refine Or.inr (Or.inr ?_)
        simp only [strLtB]
        rw [if_pos h]

theorem strLtB_irrefl (a : Str) : strLtB a a = false := by
  induction a with
  | nil => simp [strLtB]
  | cons x xs ih => simp [strLtB, ih]

theorem strLeB_trans {a b c : Str} (h1 : strLtB b a = false) (h2 : strLtB c b = false) :
    strLtB c a = false := by
  by_contra h
  have hca : strLtB c a = true := by
    cases hv : strLtB c a with
    | true => rfl
    | false => exact absurd hv h
  rcases strLtB_cases a b with h' | h' | h'
  · have := strLtB_trans hca h'
    exact absurd this (by simp [h2])
  · subst h'
    exact absurd hca (by simp [h2])
  · exact absurd h' (by simp [h1])

theorem mem_orderedInsertStr {x z : Str} {l : List Str}
    (h : z ∈ orderedInsertStr x l) : z = x ∨ z ∈ l := by
  induction l with
  | nil => simpa [orderedInsertStr] using h
  | cons y ys ih =>
    by_cases hxy : strLtB x y = true
    · simpa [orderedInsertStr, hxy] using h
    · simp only [orderedInsertStr, hxy] at h
      rcases List.mem_cons.mp h with hz | hz
      · exact Or.inr (by simp [hz])
      · rcases ih hz with h' | h'
        · exact Or.inl h'
        · exact Or.inr (List.mem_cons_of_mem _ h')

theorem pairwise_orderedInsertStr (x : Str) (l : List Str)
    (h : l.Pairwise (fun a b => strLtB b a = false)) :
    (orderedInsertStr x l).Pairwise (fun a b => strLtB b a = false) := by
  induction l with
  | nil => simp [orderedInsertStr]
  | cons y ys ih =>
    rcases List.pairwise_cons.mp h with ⟨hy, hys⟩
    by_cases hxy : strLtB x y = true
    · simp only [orderedInsertStr, hxy, if_true]
      refine List.pairwise_cons.mpr ⟨?_, h⟩
      intro z hz
      rcases List.mem_cons.mp hz with hz | hz
      · subst hz
        cases hv : strLtB z x with
        | false => rfl
        | true => exact absurd (strLtB_trans hv hxy) (by simp [strLtB_irrefl])
      · have hyz := hy z hz
        cases hv : strLtB z x with
        | false => rfl
        | true => exact absurd (strLtB_trans hv hxy) (by simp [hyz])
    · simp only [orderedInsertStr, hxy, if_false]
      refine List.pairwise_cons.mpr ⟨?_, ih hys⟩
      intro z hz
      rcases mem_orderedInsertStr hz with hz | hz
      · subst hz
        cases hv : strLtB z y with
        | false => rfl
        | true => exact absurd hv hxy
      · exact hy z hz

/-- The output list of the insertion sort in `allowed` is ascending:
no later element is lexicographically smaller than an earlier one. -/
theorem pairwise_insertionSortStr (l : List Str) :
    (insertionSortStr l).Pairwise (fun a b => strLtB b a = false) := by
  induction l with
  | nil => simp [insertionSortStr]
  | cons x xs ih => exact pairwise_orderedInsertStr x (insertionSortStr xs) ih

/-- Counterexample to C7 as stated: with only `GET /onlyget` registered,
the path `/nothere` is matched by no method's tree, so the claimed value is
`"OPTIONS"` (the empty set of matching methods plus OPTIONS) — but
`allowed` returns the empty string, because the source only appends
OPTIONS when at least one other method matched. -/
theorem c7_allowed_empty_counterexample :
    allowed onlyGetRouter "/nothere".data "POST".data = [] ∧
    claimAllowed onlyGetRouter "/nothere".data "POST".data = "OPTIONS".data ∧
    allowed onlyGetRouter "/nothere".data "POST".data ≠
      claimAllowed onlyGetRouter "/nothere".data "POST".data := by
  refine ⟨by decide, by decide, by decide⟩

/-- C7 (amended): for every router state and every path other than the
literals `*` and `/*`, `allowed(p, m)` equals the registered methods other
than `m` and OPTIONS whose tree matches `p`, plus OPTIONS, insertion-sorted
ascending and joined by `", "` — provided at least one such method matches;
when none matches, `allowed` returns the empty string instead of a bare
`"OPTIONS"`.  The sort output is ascending (`pairwise_insertionSortStr`
above), and registering only `GET /onlyget` makes
`allowed("/onlyget", "POST")` equal `"GET, OPTIONS"`. -/
theorem c7_allowed_amended :
    (∀ (r : Router) (p m : Str), p ≠ "*".data → p ≠ "/*".data →
      allowed r p m =
        (if matchingMethods r p m = [] then [] else claimAllowed r p m)) ∧
    allowed onlyGetRouter "/onlyget".data "POST".data = "GET, OPTIONS".data := by
  refine ⟨?_, by decide⟩
  intro r p m hp1 hp2
  have hnp : ¬(p = "*".data ∨ p = "/*".data) := by
    rintro (h | h)
    · exact hp1 h
    · exact hp2 h
  simp only [allowed, hnp, if_false, allowedFinish,
    allowedLoop_eq_filter r p m r.registeredPaths]
  rfl

/-- Witness for C7 at a concrete input: the router with only `GET /onlyget`
and the path `/onlyget`, method POST. -/
theorem c7_allowed_amended_witness :
    allowed onlyGetRouter "/onlyget".data "POST".data =
      (if matchingMethods onlyGetRouter "/onlyget".data "POST".data = []
       then [] else claimAllowed onlyGetRouter "/onlyget".data "POST".data) := by
  exact c7_allowed_amended.1 onlyGetRouter "/onlyget".data "POST".data
    (by decide) (by decide)

end NexoraModel
